import Mathlib

/-!
Verification development for the Emacs package dependency analyzer
(`emacs_package_dependency.py` with its static data modules
`emacs_builtin_packages.py` and `emacs_package_metadata.py`).

The Python program is embedded shallowly:

* the two regular expressions of `find_emacs_package_dependencies` are
  translated into executable character-level matchers (`headerCapture`
  for `^\s*;;;?\s*Package-Requires:\s*\((.*)\)\s*$` with `re.IGNORECASE`,
  and `findallPairs` for `re.findall` of `\(([\w-]+)[^)]*\)|([\w-]+)`);
* the filesystem is an explicit value: a repository is an optional list
  of directory entries (`none` models a path for which `os.path.isdir`
  is false), each package directory carries its files, and each file
  carries the outcome of opening and reading it;
* the Python `dict` is an insertion-ordered association list with
  `dictGet`/`dictSet`, Python `set`s of dependency names are `Finset`s;
* the category hierarchy of `emacs_package_metadata.py` is a tree in
  which a Python `dict` is a sequence of key/value entries and a Python
  `list` of package names is a leaf.
-/

/-! ### Character classes used by the regexes -/

/-- The characters matched by the regex class `\s` (ASCII fragment, as used
by the headers this program scans). -/
def isPySpace (c : Char) : Bool :=
  c = ' ' || c = '\t' || c = '\n' || c = '\x0d' || c = '\x0b' || c = '\x0c'

/-- The characters matched by the regex class `\w` (ASCII fragment):
letters, digits and underscore. -/
def isWordChar (c : Char) : Bool :=
  c.isAlphanum || c = '_'

/-- The characters matched by the regex class `[\w-]`. -/
def isDepChar (c : Char) : Bool :=
  isWordChar c || c = '-'

/-! ### The `Package-Requires` header regex

`package_requires_regex = re.compile(r"^\s*;;;?\s*Package-Requires:\s*\((.*)\)\s*$", re.IGNORECASE)`

All quantifiers in the pattern are deterministic on the input alphabet
(`\s*` is always followed by a mandatory non-space character, `;;;?` by a
non-semicolon), except the greedy `.*`, which together with the trailing
`\)\s*$` captures everything between the first `(` and the last `)` that
is followed only by whitespace.  `headerCapture` implements exactly that. -/

/-- Match a literal pattern (given in lowercase) case-insensitively against
the front of `l`; return the rest of `l` on success. -/
def matchCI : List Char → List Char → Option (List Char)
  | [], l => some l
  | _ :: _, [] => none
  | p :: ps, c :: cs => if c.toLower = p then matchCI ps cs else none

/-- The capture group of `package_requires_regex` applied to one line
(without its trailing newline, which the final `\s*$` would absorb):
`some` holds the text between the outer parentheses. -/
def headerCapture (line : List Char) : Option (List Char) :=
  match line.dropWhile isPySpace with
  | ';' :: ';' :: r₁ =>
    let r₂ := match r₁ with
      | ';' :: r => r
      | r => r
    match matchCI "package-requires:".toList (r₂.dropWhile isPySpace) with
    | none => none
    | some r₃ =>
      match r₃.dropWhile isPySpace with
      | '(' :: r₄ =>
        match r₄.reverse.dropWhile isPySpace with
        | ')' :: core => some core.reverse
        | _ => none
      | _ => none
  | _ => none

/-- Python `str.strip()` on the captured group. -/
def pyStrip (l : List Char) : List Char :=
  ((l.dropWhile isPySpace).reverse.dropWhile isPySpace).reverse

/-! ### The dependency-item regex

`dependency_item_regex = re.compile(r"\(([\w-]+)[^)]*\)|([\w-]+)")`

`re.findall` scans left to right; at each position it first tries the
parenthesized alternative, then the bare-name alternative, and on failure
advances one character.  The greedy `[\w-]+` takes the maximal run of
word-or-hyphen characters after the `(` (backtracking it can never help,
since shrinking the run only moves characters into `[^)]*`, which still
cannot match the required `)`), and `[^)]*\)` then reaches exactly the
first `)` that follows. -/

/-- One attempt of the alternative `\(([\w-]+)[^)]*\)` at the front of `l`:
on success, the captured group 1 and the input remaining after the match. -/
def parenMatch : List Char → Option (String × List Char)
  | [] => none
  | c :: rest =>
    if c = '(' then
      if (rest.takeWhile isDepChar).isEmpty then none
      else
        match (rest.dropWhile isDepChar).dropWhile (fun x => x ≠ ')') with
        | [] => none
        | x :: rem =>
          if x = ')' then some (String.mk (rest.takeWhile isDepChar), rem) else none
    else none

/-- `re.findall` of `dependency_item_regex`: the list of `(group 1, group 2)`
pairs, a non-participating group reported as `""` exactly as in Python.
The fuel argument only serves termination; each step consumes at least one
character, so `length + 1` fuel always suffices (`findallPairs`). -/
def findallPairsAux : Nat → List Char → List (String × String)
  | 0, _ => []
  | _, [] => []
  | fuel + 1, c :: rest =>
    match parenMatch (c :: rest) with
    | some (name, rem) => (name, "") :: findallPairsAux fuel rem
    | none =>
      if isDepChar c then
        ("", String.mk ((c :: rest).takeWhile isDepChar)) ::
          findallPairsAux fuel ((c :: rest).dropWhile isDepChar)
      else
        findallPairsAux fuel rest

/-- All matches of `dependency_item_regex` in `l`, as `(group 1, group 2)`. -/
def findallPairs (l : List Char) : List (String × String) :=
  findallPairsAux (l.length + 1) l

/-- The dependency names taken from the matches, as in the scanning loop:
`dep_name = group1 if group1 else group2`, added only `if dep_name`. -/
def extractDeps (l : List Char) : List String :=
  (findallPairs l).filterMap fun g =>
    let dep := if g.1 ≠ "" then g.1 else g.2
    if dep ≠ "" then some dep else none

/-- The dependency names contributed by a single line of a scanned file:
the header regex must match, and an empty captured list (after `strip`)
contributes nothing (`if not dependencies_str: continue`). -/
def lineDeps (line : String) : List String :=
  match headerCapture line.toList with
  | none => []
  | some cap =>
    if (pyStrip cap).isEmpty then [] else extractDeps (pyStrip cap)

/-! ### Filesystem model and the scanner `find_emacs_package_dependencies` -/

/-- The outcome of `open(...)` / iterating a file: successful reads yield
the file's lines (each without its trailing newline); `FileNotFoundError`
and any other exception (carrying its message) are the two caught cases. -/
inductive ReadResult where
  | ok (lines : List String)
  | notFound
  | readError (msg : String)
deriving DecidableEq, Repr

/-- A directory entry of a package directory: a file name together with
what reading that file yields. -/
structure EFile where
  name : String
  content : ReadResult
deriving DecidableEq, Repr

/-- An entry of `os.listdir(repo_path)`: its name, whether
`os.path.isdir` holds for it, and (for directories) its files. -/
structure RepoEntry where
  name : String
  isDir : Bool
  files : List EFile
deriving DecidableEq, Repr

/-- Python `s.endswith(suf)`. -/
def strEndsWith (s suf : String) : Bool :=
  suf.toList.isSuffixOf s.toList

/-- Python `s.startswith(pre)`. -/
def strStartsWith (s p : String) : Bool :=
  p.toList.isPrefixOf s.toList

/-- `os.path.join` (POSIX). -/
def pathJoin (a b : String) : String := a ++ "/" ++ b

/-- The message printed when `repo_path` is not a directory. -/
def errMsg (path : String) : String :=
  "Error: Path " ++ path ++ " is not a valid directory."

/-- The warning printed when reading a file raises other than not-found. -/
def warnMsg (path msg : String) : String :=
  "Warning: Error reading or processing file " ++ path ++ ": " ++ msg

/-- Derivation of the dictionary key from a directory name:
`if entry_name.endswith(".el") and not entry_name.startswith("."):
package_name_key = entry_name[:-3]`. -/
def deriveName (s : String) : String :=
  if strEndsWith s ".el" && !(strStartsWith s ".") then
    String.mk (s.toList.take (s.toList.length - 3))
  else s

/-- Lookup in the insertion-ordered association list modelling the Python
`dict` (`all_dependencies.get` / `in`). -/
def dictGet (d : List (String × Finset String)) (k : String) : Option (Finset String) :=
  match d with
  | [] => none
  | (k₀, v) :: rest => if k₀ = k then some v else dictGet rest k

/-- Assignment `d[k] = v` on the association list: an existing key keeps
its position, a new key is appended, as for a Python `dict`. -/
def dictSet (d : List (String × Finset String)) (k : String) (v : Finset String) :
    List (String × Finset String) :=
  match d with
  | [] => [(k, v)]
  | (k₀, v₀) :: rest =>
    if k₀ = k then (k₀, v) :: rest else (k₀, v₀) :: dictSet rest k v

/-- Main-file resolution given the derived package name and the names of
the `.el` files of the directory: the single `.el` file if there is
exactly one, otherwise `<package_name_key>.el` when present, else none. -/
def resolveMainFile (key : String) (elNames : List String) : Option String :=
  match elNames with
  | [n] => some n
  | _ => if (key ++ ".el") ∈ elNames then some (key ++ ".el") else none

/-- One iteration of the file loop, acting on the accumulator
`(current_package_deps, printed warnings)`: skip the file when
main-file-only mode is active and it is not the resolved main file
(`main_file = None` compares unequal to every name); otherwise read it,
adding each extracted dependency name to the set; not-found is passed
over silently and any other failure appends one warning. -/
def fileStep (onlyMain : Bool) (mainFile : Option String) (dirPath : String)
    (acc : Finset String × List String) (f : EFile) : Finset String × List String :=
  if onlyMain ∧ mainFile ≠ some f.name then acc
  else
    match f.content with
    | .ok lines =>
      (lines.foldl (fun s line => (lineDeps line).foldl (fun s d => insert d s) s) acc.1,
       acc.2)
    | .notFound => acc
    | .readError e => (acc.1, acc.2 ++ [warnMsg (pathJoin dirPath f.name) e])

/-- The file loop over the `.el` files of one package directory. -/
def processFiles (onlyMain : Bool) (mainFile : Option String) (dirPath : String)
    (files : List EFile) (acc : Finset String × List String) :
    Finset String × List String :=
  files.foldl (fileStep onlyMain mainFile dirPath) acc

/-- One iteration of the directory loop, acting on
`(all_dependencies, printed messages)`: non-directories are ignored;
for a directory, the key is derived, the current set fetched with `.get`
(so that colliding keys merge), the `.el` files are listed, the main file
resolved when in main-file-only mode, the files scanned, and the result
assigned back into the dictionary. -/
def scanEntry (repoPath : String) (onlyMain : Bool)
    (st : List (String × Finset String) × List String) (e : RepoEntry) :
    List (String × Finset String) × List String :=
  if !e.isDir then st
  else
    let key := deriveName e.name
    let cur := (dictGet st.1 key).getD ∅
    let elFiles := e.files.filter (fun f => strEndsWith f.name ".el")
    let mainFile := if onlyMain then resolveMainFile key (elFiles.map (·.name)) else none
    let r := processFiles onlyMain mainFile (pathJoin repoPath e.name) elFiles (cur, [])
    (dictSet st.1 key r.1, st.2 ++ r.2)

/-- `find_emacs_package_dependencies(repo_path, only_main_file)`.

The ambient filesystem is passed explicitly: `repo = none` models a
`repo_path` for which `os.path.isdir` is false.  The result is the
returned dictionary together with the messages printed, in order. -/
def find_emacs_package_dependencies (repoPath : String)
    (repo : Option (List RepoEntry)) (onlyMain : Bool) :
    List (String × Finset String) × List String :=
  match repo with
  | none => ([], [errMsg repoPath])
  | some entries => entries.foldl (scanEntry repoPath onlyMain) ([], [])

/-- The dependency names discovered in one package directory on its own
(the file loop run from an empty set), used to state the merge claims. -/
def dirContribution (repoPath : String) (onlyMain : Bool) (key : String)
    (e : RepoEntry) : Finset String :=
  let elFiles := e.files.filter (fun f => strEndsWith f.name ".el")
  let mainFile := if onlyMain then resolveMainFile key (elFiles.map (·.name)) else none
  (processFiles onlyMain mainFile (pathJoin repoPath e.name) elFiles (∅, [])).1

/-! ### Static data and the graph builder `generate_dependency_graph`

A node of `CATEGORY_HIERARCHY` is either a Python `list` of package names
or a Python `dict`; a `dict` is encoded as its ordered sequence of
key/value entries (`dnil` / `dcons`), so that all recursions over the
hierarchy are structural. -/

inductive Cat where
  | pkgs (names : List String)
  | dnil
  | dcons (key : String) (val : Cat) (rest : Cat)
deriving DecidableEq, Repr

/-- `CATEGORY_HIERARCHY` from `emacs_package_metadata.py`. -/
def CATEGORY_HIERARCHY : Cat :=
  .dcons "开发环境"
    (.dcons "packages" (.pkgs ["magit", "apheleia"]) .dnil)
  (.dcons "mini-buffer补全"
    (.dcons "vertico 套装" (.pkgs ["vertico", "orderless", "embark", "consult", "marginalia"])
    (.dcons "packages" (.pkgs ["helm"]) .dnil))
  (.dcons "知识管理"
    (.dcons "笔记" (.pkgs ["org-media-note", "org-annot-bridge", "org", "org-contrib", "org-cliplink"])
    (.dcons "文献管理" (.pkgs ["citar", "parsebib", "org-cite", "helm-bibtex"])
    (.dcons "GTD" (.pkgs ["org-journal", "org-super-agenda", "cal-china-x"])
    (.dcons "文档浏览" (.pkgs ["nov", "pdf-tools"])
    (.dcons "packages" (.pkgs ["org-sticky-header", "org-rifle", "helm-org", "org-mru-clock", "doct", "rainbow-mode"]) .dnil)))))
  (.dcons "通用编辑"
    (.dcons "snippet" (.pkgs ["yasnippet", "yankpad", "xah-math-input"])
    (.dcons "packages" (.pkgs ["vundo", "expand-region"]) .dnil))
  (.dcons "straight 包安装工具"
    (.pkgs ["emacsmirror-mirror", "gnu-elpa-mirror", "melpa", "nongnu-elpa", "straight"])
    .dnil))))

/-- `EMACS_BUILTIN_PACKAGES` from `emacs_builtin_packages.py`. -/
def EMACS_BUILTIN_PACKAGES : List (String × Finset String) :=
  [("30", {"emacs", "cl-lib", "org", "transient"})]

/-- `get_all_packages`: recursively collect every package list hanging in
the hierarchy (the `packages` entries are lists and are collected by the
same `isinstance(content, list)` branch as the named leaf categories).
Python builds a set; the list here is read through membership only. -/
def getAllPackages : Cat → List String
  | .pkgs names => names
  | .dnil => []
  | .dcons _ v rest => getAllPackages v ++ getAllPackages rest

/-- The nodes that `create_category_subgraph` emits for the content of one
category, as pairs of the enclosing cluster path and the package name: a
list yields a node per member that is a key of the dependency map; a
dict recurses into each subcategory entry (key ≠ `"packages"`) under the
extended path and emits its own `packages` list under the current path.
(The source iterates a dict twice — subcategories first, then the
`packages` key; dict keys are unique, so emitting the `packages` entry in
sequence produces the same collection of nodes.) -/
def contentNodes (isKey : String → Bool) (path : List String) :
    Cat → List (List String × String)
  | .pkgs names => (names.filter isKey).map (fun p => (path, p))
  | .dnil => []
  | .dcons k v rest =>
    (if k = "packages" then
      match v with
      | .pkgs names => (names.filter isKey).map (fun p => (path, p))
      | _ => []
     else contentNodes isKey (path ++ [k]) v) ++ contentNodes isKey path rest

/-- The nodes emitted by the top-level loop
`for category_name, content in CATEGORY_HIERARCHY.items():
create_category_subgraph(dot, category_name, content)`. -/
def hierNodes (isKey : String → Bool) : Cat → List (List String × String)
  | .pkgs _ => []
  | .dnil => []
  | .dcons k v rest => contentNodes isKey [k] v ++ hierNodes isKey rest

/-- Whether a name is a key of the dependency map (`package in dependencies`). -/
def isMapKey (deps : List (String × Finset String)) (p : String) : Bool :=
  (dictGet deps p).isSome

/-- All nodes of the generated graph, each as (cluster path, package name):
the categorized nodes, then one top-level node (empty path) for every key
of the dependency map that lies in no category. -/
def graphNodes (deps : List (String × Finset String)) : List (List String × String) :=
  hierNodes (isMapKey deps) CATEGORY_HIERARCHY ++
    ((deps.map Prod.fst).filter
      (fun p => p ∉ getAllPackages CATEGORY_HIERARCHY)).map (fun p => ([], p))

/-- The edges of the generated graph:
`for package, deps in dependencies.items(): for dep in deps:
if dep in dependencies: dot.edge(package, dep)`. -/
def graphEdges (deps : List (String × Finset String)) : Finset (String × String) :=
  deps.foldl
    (fun acc e => acc ∪ (e.2.filter (fun d => isMapKey deps d)).image (fun d => (e.1, d)))
    ∅

/-! ### Dependency tokens, for the token-extraction claim

A well-formed token of a `Package-Requires` list is either a
parenthesized form `(name<extra>)` — `name` a nonempty word-or-hyphen
run, `<extra>` (for instance a version string ` "1.2.3"`) containing no
closing parenthesis and not beginning with a word-or-hyphen character —
or a bare name. -/

inductive DepTok where
  | paren (name extra : String)
  | bare (name : String)
deriving DecidableEq, Repr

/-- The name a token declares. -/
def tokName : DepTok → String
  | .paren n _ => n
  | .bare n => n

/-- The source text of a token. -/
def tokStr : DepTok → String
  | .paren n e => "(" ++ n ++ e ++ ")"
  | .bare n => n

/-- Well-formedness of a token (see above). -/
def tokWF : DepTok → Bool
  | .paren n e =>
    n != "" && n.toList.all isDepChar &&
      e.toList.all (fun c => c ≠ ')') &&
      (match e.toList.head? with
       | some c => !isDepChar c
       | none => true)
  | .bare n => n != "" && n.toList.all isDepChar

/-- A token list rendered as the captured dependency-list text, the
tokens separated by single spaces. -/
def renderToks : List DepTok → String
  | [] => ""
  | [t] => tokStr t
  | t :: ts => tokStr t ++ " " ++ renderToks ts

/-! ### Lemmas about the dependency-item matcher -/

lemma length_dropWhile_le (p : Char → Bool) (l : List Char) :
    (l.dropWhile p).length ≤ l.length :=
  (List.dropWhile_suffix p).length_le

lemma parenMatch_some_length {l rem : List Char} {n : String}
    (h : parenMatch l = some (n, rem)) : rem.length < l.length := by
  cases l with
  | nil => simp [parenMatch] at h
  | cons c rest =>
    simp only [parenMatch] at h
    split at h
    · split at h
      · simp at h
      · split at h
        · simp at h
        · rename_i x rem' heq
          split at h
          · rw [Option.some.injEq, Prod.mk.injEq] at h
            obtain ⟨-, rfl⟩ := h
            have h1 : (x :: rem').length ≤ (rest.dropWhile isDepChar).length := by
              rw [← heq]; exact length_dropWhile_le _ _
            have h2 := length_dropWhile_le isDepChar rest
            simp only [List.length_cons] at h1 ⊢
            omega
          · simp at h
    · simp at h

lemma findallPairsAux_congr : ∀ (f₁ f₂ : Nat) (l : List Char),
    l.length ≤ f₁ → l.length ≤ f₂ → findallPairsAux f₁ l = findallPairsAux f₂ l := by
  intro f₁
  induction f₁ with
  | zero =>
    intro f₂ l h1 _
    have : l = [] := List.eq_nil_of_length_eq_zero (Nat.le_zero.mp h1)
    subst this
    cases f₂ <;> rfl
  | succ f ih =>
    intro f₂ l h1 h2
    cases l with
    | nil => cases f₂ <;> rfl
    | cons c rest =>
      cases f₂ with
      | zero => simp at h2
      | succ f₂' =>
        simp only [findallPairsAux]
        cases hp : parenMatch (c :: rest) with
        | some pr =>
          obtain ⟨name, rem⟩ := pr
          have hlen := parenMatch_some_length hp
          simp only [List.length_cons] at h1 h2 hlen
          have e := ih f₂' rem (by omega) (by omega)
          simp [e]
        | none =>
          by_cases hc : isDepChar c
          · have hd := length_dropWhile_le isDepChar rest
            simp only [List.length_cons] at h1 h2
            simp [hc]
            exact ih f₂' (rest.dropWhile isDepChar) (by omega) (by omega)
          · simp only [List.length_cons] at h1 h2
            simp [hc, ih f₂' rest (by omega) (by omega)]

lemma findallPairs_paren {l rem : List Char} {n : String}
    (h : parenMatch l = some (n, rem)) :
    findallPairs l = (n, "") :: findallPairs rem := by
  cases l with
  | nil => simp [parenMatch] at h
  | cons c rest =>
    have hlen := parenMatch_some_length h
    simp only [List.length_cons] at hlen
    show findallPairsAux (rest.length + 1 + 1) (c :: rest) = _
    simp only [findallPairsAux, h]
    rw [findallPairsAux_congr (rest.length + 1) (rem.length + 1) rem (by omega) (by omega)]
    rfl

lemma findallPairs_bare {c : Char} {rest : List Char}
    (h : parenMatch (c :: rest) = none) (hc : isDepChar c = true) :
    findallPairs (c :: rest) =
      ("", String.mk ((c :: rest).takeWhile isDepChar)) ::
        findallPairs ((c :: rest).dropWhile isDepChar) := by
  have hd := length_dropWhile_le isDepChar rest
  show findallPairsAux (rest.length + 1 + 1) (c :: rest) = _
  simp only [findallPairsAux, h, hc, if_true]
  rw [List.dropWhile_cons_of_pos hc, List.takeWhile_cons_of_pos hc]
  rw [findallPairsAux_congr (rest.length + 1) ((rest.dropWhile isDepChar).length + 1)
    (rest.dropWhile isDepChar) (by omega) (by omega)]
  rfl

lemma findallPairs_skip {c : Char} {rest : List Char}
    (h : parenMatch (c :: rest) = none) (hc : isDepChar c = false) :
    findallPairs (c :: rest) = findallPairs rest := by
  show findallPairsAux (rest.length + 1 + 1) (c :: rest) = _
  simp only [findallPairsAux, h, hc, if_false, Bool.false_eq_true]
  exact findallPairsAux_congr (rest.length + 1) (rest.length + 1) rest (by omega) (by omega)

/-! ### Lemmas about token extraction (claim C1) -/

lemma isDepChar_ne_lparen {c : Char} (h : isDepChar c = true) : c ≠ '(' := by
  intro he
  rw [he] at h
  exact absurd h (by decide)

lemma parenMatch_of_head_dep {c : Char} {rest : List Char} (h : isDepChar c = true) :
    parenMatch (c :: rest) = none := by
  simp [parenMatch, isDepChar_ne_lparen h]

lemma string_ne_empty_toList {n : String} (h : n ≠ "") : n.toList ≠ [] := by
  intro hl
  exact h (String.ext hl)

lemma takeWhile_head_neg {tail : List Char} (p : Char → Bool)
    (hhead : ∀ c, tail.head? = some c → p c = false) : tail.takeWhile p = [] := by
  cases tail with
  | nil => rfl
  | cons d ds => exact List.takeWhile_cons_of_neg (by simp [hhead d rfl])

lemma dropWhile_head_neg {tail : List Char} (p : Char → Bool)
    (hhead : ∀ c, tail.head? = some c → p c = false) : tail.dropWhile p = tail := by
  cases tail with
  | nil => rfl
  | cons d ds => exact List.dropWhile_cons_of_neg (by simp [hhead d rfl])

lemma findallPairs_parenTok (n e : String) (tail : List Char)
    (hn : n.toList ≠ []) (hdep : ∀ c ∈ n.toList, isDepChar c = true)
    (he : ∀ c ∈ e.toList, c ≠ ')')
    (hhead : ∀ c, e.toList.head? = some c → isDepChar c = false) :
    findallPairs ('(' :: (n.toList ++ (e.toList ++ ')' :: tail))) =
      (n, "") :: findallPairs tail := by
  have hfollow : ∀ c, (e.toList ++ ')' :: tail).head? = some c → isDepChar c = false := by
    intro c hc
    cases hel : e.toList with
    | nil =>
      rw [hel] at hc
      simp only [List.nil_append, List.head?_cons, Option.some.injEq] at hc
      rw [← hc]
      decide
    | cons d ds =>
      rw [hel] at hc
      simp only [List.cons_append, List.head?_cons, Option.some.injEq] at hc
      rw [← hc]
      exact hhead d (by rw [hel]; rfl)
  have htake : (n.toList ++ (e.toList ++ ')' :: tail)).takeWhile isDepChar = n.toList := by
    rw [List.takeWhile_append_of_pos hdep, takeWhile_head_neg _ hfollow, List.append_nil]
  have hdrop : (n.toList ++ (e.toList ++ ')' :: tail)).dropWhile isDepChar =
      e.toList ++ ')' :: tail := by
    rw [List.dropWhile_append_of_pos hdep]
    exact dropWhile_head_neg _ hfollow
  have hdrop2 : (e.toList ++ ')' :: tail).dropWhile (fun x => decide (x ≠ ')')) =
      ')' :: tail := by
    rw [List.dropWhile_append_of_pos (by intro a ha; simpa using he a ha)]
    exact List.dropWhile_cons_of_neg (by simp)
  have hne : n.toList.isEmpty = false := by
    cases hl : n.toList with
    | nil => exact absurd hl hn
    | cons a as => rfl
  apply findallPairs_paren
  simp only [parenMatch, htake, hdrop, hdrop2, hne, if_pos rfl, Bool.false_eq_true,
    if_false, reduceIte]
  rfl

lemma findallPairs_bareTok (n : String) (tail : List Char)
    (hn : n.toList ≠ []) (hdep : ∀ c ∈ n.toList, isDepChar c = true)
    (hhead : ∀ c, tail.head? = some c → isDepChar c = false) :
    findallPairs (n.toList ++ tail) = ("", n) :: findallPairs tail := by
  obtain ⟨c, cs, hcons⟩ : ∃ c cs, n.toList = c :: cs := by
    cases h : n.toList with
    | nil => exact absurd h hn
    | cons c cs => exact ⟨c, cs, rfl⟩
  have hc : isDepChar c = true := hdep c (by rw [hcons]; exact List.mem_cons_self c cs)
  have htake : (n.toList ++ tail).takeWhile isDepChar = n.toList := by
    rw [List.takeWhile_append_of_pos hdep, takeWhile_head_neg _ hhead, List.append_nil]
  have hdrop : (n.toList ++ tail).dropWhile isDepChar = tail := by
    rw [List.dropWhile_append_of_pos hdep]
    exact dropWhile_head_neg _ hhead
  rw [hcons, List.cons_append,
    findallPairs_bare (parenMatch_of_head_dep hc) hc,
    ← List.cons_append, ← hcons, htake, hdrop]
  rfl

lemma findallPairs_space (rest : List Char) :
    findallPairs (' ' :: rest) = findallPairs rest :=
  findallPairs_skip (by simp [parenMatch]) (by decide)

/-- The `(group 1, group 2)` pair a well-formed token matches as. -/
def pairOfTok : DepTok → String × String
  | .paren n _ => (n, "")
  | .bare n => ("", n)

lemma findallPairs_renderToks (toks : List DepTok) (h : ∀ t ∈ toks, tokWF t = true) :
    findallPairs (renderToks toks).toList = toks.map pairOfTok := by
  induction toks with
  | nil => rfl
  | cons t ts ih =>
    have hts : ∀ u ∈ ts, tokWF u = true := fun u hu => h u (List.mem_cons_of_mem t hu)
    have ht : tokWF t = true := h t (List.mem_cons_self t ts)
    have step : ∀ tail : List Char,
        (tail.head? = none ∨ tail.head? = some ' ') →
        findallPairs ((tokStr t).toList ++ tail) = pairOfTok t :: findallPairs tail := by
      intro tail htail
      have hhead : ∀ c, tail.head? = some c → isDepChar c = false := by
        intro c hc
        rcases htail with h1 | h1
        · rw [h1] at hc; exact absurd hc (by simp)
        · rw [h1] at hc
          rw [Option.some.injEq] at hc
          rw [← hc]
          decide
      cases t with
      | paren n e =>
        simp only [tokWF, Bool.and_eq_true, bne_iff_ne, ne_eq, List.all_eq_true,
          decide_eq_true_eq] at ht
        obtain ⟨⟨⟨hne, hdep⟩, hpar⟩, hhd⟩ := ht
        have hhd2 : ∀ c, e.toList.head? = some c → isDepChar c = false := by
          intro c hc
          rw [hc] at hhd
          simpa using hhd
        have harr : (tokStr (.paren n e)).toList ++ tail =
            '(' :: (n.toList ++ (e.toList ++ ')' :: tail)) := by
          simp [tokStr, String.data_append]
        rw [harr, findallPairs_parenTok n e tail (string_ne_empty_toList hne) hdep hpar hhd2]
        rfl
      | bare n =>
        simp only [tokWF, Bool.and_eq_true, bne_iff_ne, ne_eq, List.all_eq_true,
          decide_eq_true_eq] at ht
        obtain ⟨hne, hdep⟩ := ht
        exact findallPairs_bareTok n tail (string_ne_empty_toList hne) hdep hhead
    cases ts with
    | nil =>
      have hr : renderToks [t] = tokStr t := rfl
      rw [hr, ← List.append_nil (tokStr t).toList, step [] (Or.inl rfl)]
      rfl
    | cons t' ts' =>
      have hr : renderToks (t :: t' :: ts') = tokStr t ++ " " ++ renderToks (t' :: ts') := rfl
      rw [hr]
      have htl : (tokStr t ++ " " ++ renderToks (t' :: ts')).toList =
          (tokStr t).toList ++ (' ' :: (renderToks (t' :: ts')).toList) := by
        simp [String.data_append]
      rw [htl, step (' ' :: (renderToks (t' :: ts')).toList) (Or.inr rfl),
        findallPairs_space, ih hts]
      rfl

lemma filterMap_pairOfTok (toks : List DepTok) (h : ∀ t ∈ toks, tokWF t = true) :
    ((toks.map pairOfTok).filterMap fun g =>
      let dep := if g.1 ≠ "" then g.1 else g.2
      if dep ≠ "" then some dep else none) = toks.map tokName := by
  induction toks with
  | nil => rfl
  | cons t ts ih =>
    have hts : ∀ u ∈ ts, tokWF u = true := fun u hu => h u (List.mem_cons_of_mem t hu)
    have ht : tokWF t = true := h t (List.mem_cons_self t ts)
    have hname : tokName t ≠ "" := by
      cases t with
      | paren n e =>
        simp only [tokWF, Bool.and_eq_true, bne_iff_ne] at ht
        exact ht.1.1.1
      | bare n =>
        simp only [tokWF, Bool.and_eq_true, bne_iff_ne] at ht
        exact ht.1
    have hf : (let dep := if (pairOfTok t).1 ≠ "" then (pairOfTok t).1 else (pairOfTok t).2
        if dep ≠ "" then some dep else none) = some (tokName t) := by
      cases t with
      | paren n e =>
        simp only [tokName] at hname
        simp [pairOfTok, tokName, hname]
      | bare n =>
        simp only [tokName] at hname
        simp [pairOfTok, tokName, hname]
    rw [List.map_cons, List.filterMap_cons, hf, List.map_cons, ih hts]

/-- **C1.**  For every captured `Package-Requires` dependency-list string —
here, any well-formed token list rendered as text — the extractor returns
exactly the token names, in order: a parenthesized token `(name ...)`
contributes the first word-or-hyphen run inside the parentheses (its
name), a bare token contributes itself, and the accompanying version
text of a parenthesized token never appears among the extracted names. -/
theorem claim_C1 (toks : List DepTok) (h : ∀ t ∈ toks, tokWF t = true) :
    extractDeps (renderToks toks).toList = toks.map tokName := by
  rw [extractDeps, findallPairs_renderToks toks h]
  exact filterMap_pairOfTok toks h

/-- Witness for C1 at the list `(emacs "27.1") pkg-a`. -/
theorem claim_C1_witness :
    (∀ t ∈ [DepTok.paren "emacs" " \"27.1\"", DepTok.bare "pkg-a"], tokWF t = true) ∧
    extractDeps
      (renderToks [DepTok.paren "emacs" " \"27.1\"", DepTok.bare "pkg-a"]).toList =
      ["emacs", "pkg-a"] :=
  ⟨by decide, claim_C1 [DepTok.paren "emacs" " \"27.1\"", DepTok.bare "pkg-a"] (by decide)⟩

/-! ### Shape of extracted names (claim C10) -/

lemma parenMatch_some_good {l rem : List Char} {n : String}
    (h : parenMatch l = some (n, rem)) :
    n.toList ≠ [] ∧ ∀ c ∈ n.toList, isDepChar c = true := by
  cases l with
  | nil => simp [parenMatch] at h
  | cons c rest =>
    simp only [parenMatch] at h
    split at h
    · split at h
      · simp at h
      · rename_i hne
        split at h
        · simp at h
        · rename_i x rem' heq
          split at h
          · rw [Option.some.injEq, Prod.mk.injEq] at h
            obtain ⟨h1, -⟩ := h
            rw [← h1]
            refine ⟨?_, ?_⟩
            · intro hl
              exact hne (by simpa [List.isEmpty_iff] using hl)
            · intro a ha
              exact List.mem_takeWhile_imp ha
          · simp at h
    · simp at h

lemma mem_findallPairsAux_good : ∀ (fuel : Nat) (l : List Char) (g : String × String),
    g ∈ findallPairsAux fuel l →
    (if g.1 ≠ "" then g.1 else g.2).toList ≠ [] ∧
      ∀ c ∈ (if g.1 ≠ "" then g.1 else g.2).toList, isDepChar c = true := by
  intro fuel
  induction fuel with
  | zero => intro l g hg; simp [findallPairsAux] at hg
  | succ f ih =>
    intro l g hg
    cases l with
    | nil => simp [findallPairsAux] at hg
    | cons c rest =>
      simp only [findallPairsAux] at hg
      cases hp : parenMatch (c :: rest) with
      | some pr =>
        obtain ⟨name, rem⟩ := pr
        rw [hp] at hg
        rcases List.mem_cons.mp hg with rfl | hmem
        · obtain ⟨hne, hdep⟩ := parenMatch_some_good hp
          have hne2 : name ≠ "" := fun he => hne (by rw [he]; rfl)
          simpa [hne2] using ⟨hne, hdep⟩
        · exact ih rem g hmem
      | none =>
        rw [hp] at hg
        by_cases hc : isDepChar c
        · rw [if_pos hc] at hg
          rcases List.mem_cons.mp hg with rfl | hmem
          · have htl : (String.mk ((c :: rest).takeWhile isDepChar)).toList =
                c :: rest.takeWhile isDepChar := by
              simp [List.takeWhile_cons_of_pos hc]
            refine ⟨?_, ?_⟩
            · rw [show (if ("" : String) ≠ "" then ("" : String)
                  else String.mk ((c :: rest).takeWhile isDepChar)) =
                  String.mk ((c :: rest).takeWhile isDepChar) by simp, htl]
              exact List.cons_ne_nil c _
            · intro a ha
              rw [show (if ("" : String) ≠ "" then ("" : String)
                  else String.mk ((c :: rest).takeWhile isDepChar)) =
                  String.mk ((c :: rest).takeWhile isDepChar) by simp] at ha
              exact List.mem_takeWhile_imp (show a ∈ (c :: rest).takeWhile isDepChar from ha)
          · exact ih _ g hmem
        · rw [if_neg hc] at hg
          exact ih rest g hg

lemma mem_extractDeps_good {l : List Char} {d : String} (h : d ∈ extractDeps l) :
    d.toList ≠ [] ∧ ∀ c ∈ d.toList, isDepChar c = true := by
  rw [extractDeps] at h
  obtain ⟨g, hg, hfg⟩ := List.mem_filterMap.mp h
  by_cases hdep : (if g.1 ≠ "" then g.1 else g.2) ≠ ""
  · simp only [if_pos hdep] at hfg
    rw [Option.some.injEq] at hfg
    rw [← hfg]
    exact mem_findallPairsAux_good _ _ g hg
  · simp only [if_neg hdep] at hfg
    exact absurd hfg (by simp)

lemma mem_lineDeps_good {line : String} {d : String} (h : d ∈ lineDeps line) :
    d.toList ≠ [] ∧ ∀ c ∈ d.toList, isDepChar c = true := by
  rw [lineDeps] at h
  split at h
  · simp at h
  · split at h
    · simp at h
    · exact mem_extractDeps_good h

/-! ### Lemmas about the scanning folds -/

lemma mem_foldl_insert (ds : List String) (s : Finset String) (x : String) :
    x ∈ ds.foldl (fun a d => insert d a) s ↔ x ∈ s ∨ x ∈ ds := by
  induction ds generalizing s with
  | nil => simp
  | cons d ds ih =>
    rw [List.foldl_cons, ih]
    simp [Finset.mem_insert, or_assoc]
    tauto

lemma foldl_insert_eq_union (ds : List String) (s : Finset String) :
    ds.foldl (fun a d => insert d a) s = s ∪ ds.foldl (fun a d => insert d a) ∅ := by
  ext x
  rw [mem_foldl_insert, Finset.mem_union, mem_foldl_insert]
  simp

lemma mem_linesFold (lines : List String) (s : Finset String) (x : String) :
    x ∈ lines.foldl (fun s line => (lineDeps line).foldl (fun s d => insert d s) s) s ↔
      x ∈ s ∨ ∃ line ∈ lines, x ∈ lineDeps line := by
  induction lines generalizing s with
  | nil => simp
  | cons l ls ih =>
    rw [List.foldl_cons, ih, mem_foldl_insert]
    simp [or_assoc]

lemma linesFold_union (lines : List String) (s : Finset String) :
    lines.foldl (fun s line => (lineDeps line).foldl (fun s d => insert d s) s) s =
      s ∪ lines.foldl (fun s line => (lineDeps line).foldl (fun s d => insert d s) s) ∅ := by
  ext x
  rw [mem_linesFold, Finset.mem_union, mem_linesFold]
  simp

lemma fileStep_decomp (om : Bool) (mf : Option String) (dp : String)
    (acc : Finset String × List String) (f : EFile) :
    fileStep om mf dp acc f =
      (acc.1 ∪ (fileStep om mf dp (∅, []) f).1,
       acc.2 ++ (fileStep om mf dp (∅, []) f).2) := by
  simp only [fileStep]
  by_cases hskip : om = true ∧ mf ≠ some f.name
  · rw [if_pos hskip, if_pos hskip]
    simp
  · rw [if_neg hskip, if_neg hskip]
    cases hc : f.content with
    | ok lines =>
      simp only []
      rw [linesFold_union lines acc.1]
      simp
    | notFound => simp
    | readError e => simp

lemma processFiles_decomp (om : Bool) (mf : Option String) (dp : String)
    (files : List EFile) (acc : Finset String × List String) :
    processFiles om mf dp files acc =
      (acc.1 ∪ (processFiles om mf dp files (∅, [])).1,
       acc.2 ++ (processFiles om mf dp files (∅, [])).2) := by
  induction files generalizing acc with
  | nil => simp [processFiles]
  | cons f fs ih =>
    have hstep : ∀ a, processFiles om mf dp (f :: fs) a =
        processFiles om mf dp fs (fileStep om mf dp a f) := fun a => rfl
    rw [hstep acc, hstep (∅, []), ih (fileStep om mf dp acc f),
      ih (fileStep om mf dp (∅, []) f), fileStep_decomp om mf dp acc f]
    refine Prod.ext ?_ ?_
    · simp [Finset.union_assoc]
    · simp

lemma fileStep_skip_all (dp : String) (acc : Finset String × List String) (f : EFile) :
    fileStep true none dp acc f = acc := by
  simp [fileStep]

lemma processFiles_none_main (dp : String) (files : List EFile)
    (acc : Finset String × List String) :
    processFiles true none dp files acc = acc := by
  induction files generalizing acc with
  | nil => rfl
  | cons f fs ih =>
    have hstep : processFiles true none dp (f :: fs) acc =
        processFiles true none dp fs (fileStep true none dp acc f) := rfl
    rw [hstep, fileStep_skip_all, ih]

lemma dictGet_dictSet (d : List (String × Finset String)) (k : String) (v : Finset String)
    (q : String) :
    dictGet (dictSet d k v) q = if k = q then some v else dictGet d q := by
  induction d with
  | nil => simp [dictGet, dictSet]
  | cons e rest ih =>
    obtain ⟨k₀, v₀⟩ := e
    by_cases h0 : k₀ = k
    · subst h0
      simp only [dictSet, if_pos rfl, dictGet]
      by_cases hq : k₀ = q
      · subst hq; simp [dictGet]
      · simp [dictGet, hq]
    · simp only [dictSet, if_neg h0, dictGet]
      by_cases hq : k₀ = q
      · subst hq
        have hkk : ¬(k = k₀) := fun he => h0 he.symm
        simp [dictGet, hkk]
      · rw [if_neg hq, if_neg hq, ih]

/-! ### Claim C4: package-name derivation -/

/-- **C4.**  A directory name ending in `.el` and not starting with `.`
derives the package name with that suffix removed (appending `.el` gives
back the directory name); every other directory name is used verbatim. -/
theorem claim_C4 (s : String) :
    (strEndsWith s ".el" = true → strStartsWith s "." = false →
      deriveName s ++ ".el" = s) ∧
    (strEndsWith s ".el" = false ∨ strStartsWith s "." = true →
      deriveName s = s) := by
  constructor
  · intro he hs
    obtain ⟨pre, hpre⟩ : ∃ pre, pre ++ ".el".toList = s.toList := by
      have := (List.isSuffixOf_iff_suffix).mp he
      obtain ⟨t, ht⟩ := this
      exact ⟨t, ht⟩
    have hlen : s.toList.length = pre.length + 3 := by
      rw [← hpre, List.length_append]
      rfl
    have htake : s.toList.take (s.toList.length - 3) = pre := by
      rw [hlen, Nat.add_sub_cancel, ← hpre, List.take_left]
    rw [deriveName, if_pos (by rw [he, hs]; rfl), htake]
    apply String.ext
    rw [String.data_append]
    exact hpre
  · intro h
    rw [deriveName, if_neg]
    intro hb
    rw [Bool.and_eq_true, Bool.not_eq_true'] at hb
    rcases h with h | h
    · rw [h] at hb
      exact absurd hb.1 (by simp)
    · rw [h] at hb
      exact absurd hb.2 (by simp)

/-- Witness for C4 at `foo.el`, `.el` and `bar`. -/
theorem claim_C4_witness :
    (strEndsWith "foo.el" ".el" = true ∧ strStartsWith "foo.el" "." = false ∧
      deriveName "foo.el" ++ ".el" = "foo.el") ∧
    (strStartsWith ".el" "." = true ∧ deriveName ".el" = ".el") ∧
    (strEndsWith "bar" ".el" = false ∧ deriveName "bar" = "bar") :=
  ⟨⟨by decide, by decide, (claim_C4 "foo.el").1 (by decide) (by decide)⟩,
   ⟨by decide, (claim_C4 ".el").2 (Or.inr (by decide))⟩,
   ⟨by decide, (claim_C4 "bar").2 (Or.inl (by decide))⟩⟩

/-! ### Claims C7 and C8: error handling -/

lemma head_errMsg (q : String) : (errMsg q).data.head? = some 'E' := by
  rw [errMsg, String.data_append, String.data_append]
  rfl

lemma head_warnMsg (fp e : String) : (warnMsg fp e).data.head? = some 'W' := by
  rw [warnMsg, String.data_append, String.data_append, String.data_append]
  rfl

lemma errMsg_ne_warnMsg (q fp e : String) : errMsg q ≠ warnMsg fp e := by
  intro h
  have := head_errMsg q
  rw [h, head_warnMsg] at this
  exact absurd (Option.some.inj this) (by decide)

lemma processFiles_msgs (om : Bool) (mf : Option String) (dp : String)
    (files : List EFile) (acc : Finset String × List String) :
    ∀ m ∈ (processFiles om mf dp files acc).2, m ∈ acc.2 ∨ ∃ fp e, m = warnMsg fp e := by
  induction files generalizing acc with
  | nil => intro m hm; exact Or.inl hm
  | cons f fs ih =>
    intro m hm
    have hstep : processFiles om mf dp (f :: fs) acc =
        processFiles om mf dp fs (fileStep om mf dp acc f) := rfl
    rw [hstep] at hm
    rcases ih (fileStep om mf dp acc f) m hm with hin | hw
    · simp only [fileStep] at hin
      split at hin
      · exact Or.inl hin
      · split at hin
        · exact Or.inl hin
        · exact Or.inl hin
        · rcases List.mem_append.mp hin with h1 | h2
          · exact Or.inl h1
          · exact Or.inr ⟨_, _, (List.mem_singleton.mp h2)⟩
    · exact Or.inr hw

lemma scan_msgs (p : String) (om : Bool) (entries : List RepoEntry) :
    ∀ m ∈ (find_emacs_package_dependencies p (some entries) om).2,
      ∃ fp e, m = warnMsg fp e := by
  rw [find_emacs_package_dependencies]
  have main : ∀ (es : List RepoEntry) (st : List (String × Finset String) × List String),
      (∀ m ∈ st.2, ∃ fp e, m = warnMsg fp e) →
      ∀ m ∈ (es.foldl (scanEntry p om) st).2, ∃ fp e, m = warnMsg fp e := by
    intro es
    induction es with
    | nil => intro st h m hm; exact h m hm
    | cons e es ih =>
      intro st h m hm
      rw [List.foldl_cons] at hm
      refine ih (scanEntry p om st e) ?_ m hm
      intro m' hm'
      simp only [scanEntry] at hm'
      split at hm'
      · exact h m' hm'
      · rcases List.mem_append.mp hm' with h1 | h2
        · exact h m' h1
        · rcases processFiles_msgs om _ _ _ _ m' h2 with h3 | h3
          · exact absurd h3 (List.not_mem_nil m')
          · exact h3
  exact main entries ([], []) (by intro m hm; exact absurd hm (List.not_mem_nil m))

/-- **C7.**  A path that is not an existing directory makes the scan report
the invalid-path error and return an empty mapping; for an existing
directory no such error is ever reported (every printed message is a
per-file warning). -/
theorem claim_C7 (p : String) (om : Bool) :
    find_emacs_package_dependencies p none om = ([], [errMsg p]) ∧
    (∀ (entries : List RepoEntry) (q : String),
      errMsg q ∉ (find_emacs_package_dependencies p (some entries) om).2) := by
  refine ⟨rfl, ?_⟩
  intro entries q hmem
  obtain ⟨fp, e, he⟩ := scan_msgs p om entries (errMsg q) hmem
  exact errMsg_ne_warnMsg q fp e he

/-- Witness for C7 on a one-directory repository. -/
theorem claim_C7_witness :
    find_emacs_package_dependencies "/bad" none true = ([], [errMsg "/bad"]) ∧
    errMsg "/r" ∉
      (find_emacs_package_dependencies "/r"
        (some [⟨"pkg", true, [⟨"pkg.el", .readError "oops"⟩]⟩]) true).2 :=
  ⟨(claim_C7 "/bad" true).1, (claim_C7 "/r" true).2 [⟨"pkg", true, [⟨"pkg.el", .readError "oops"⟩]⟩] "/r"⟩

lemma fileStep_notFound {f : EFile} (om : Bool) (mf : Option String) (dp : String)
    (acc : Finset String × List String) (h : f.content = .notFound) :
    fileStep om mf dp acc f = acc := by
  simp only [fileStep, h]
  split <;> rfl

lemma fileStep_readError {f : EFile} {e : String} (om : Bool) (mf : Option String)
    (dp : String) (acc : Finset String × List String)
    (h : f.content = .readError e) (hrun : om = false ∨ mf = some f.name) :
    fileStep om mf dp acc f = (acc.1, acc.2 ++ [warnMsg (pathJoin dp f.name) e]) := by
  simp only [fileStep, h]
  rw [if_neg]
  rintro ⟨hom, hmf⟩
  rcases hrun with h1 | h1
  · rw [h1] at hom
    exact absurd hom (by decide)
  · exact hmf h1

lemma processFiles_append (om : Bool) (mf : Option String) (dp : String)
    (l₁ l₂ : List EFile) (acc : Finset String × List String) :
    processFiles om mf dp (l₁ ++ l₂) acc =
      processFiles om mf dp l₂ (processFiles om mf dp l₁ acc) :=
  List.foldl_append _ _ l₁ l₂

/-- **C8.**  A per-file not-found failure is skipped silently (the scan is
as if the file were absent), and any other read failure only appends one
warning, skips that file's contribution, and scanning continues with the
remaining files. -/
theorem claim_C8 (om : Bool) (mf : Option String) (dp : String)
    (init : Finset String × List String) (fs₁ fs₂ : List EFile) (f : EFile) :
    (f.content = .notFound →
      processFiles om mf dp (fs₁ ++ f :: fs₂) init =
        processFiles om mf dp (fs₁ ++ fs₂) init) ∧
    (∀ e, f.content = .readError e → (om = false ∨ mf = some f.name) →
      processFiles om mf dp (fs₁ ++ f :: fs₂) init =
        processFiles om mf dp fs₂
          ((processFiles om mf dp fs₁ init).1,
           (processFiles om mf dp fs₁ init).2 ++ [warnMsg (pathJoin dp f.name) e])) := by
  constructor
  · intro h
    rw [processFiles_append, processFiles_append om mf dp fs₁ fs₂ init]
    have : processFiles om mf dp (f :: fs₂) (processFiles om mf dp fs₁ init) =
        processFiles om mf dp fs₂
          (fileStep om mf dp (processFiles om mf dp fs₁ init) f) := rfl
    rw [this, fileStep_notFound om mf dp _ h]
  · intro e h hrun
    rw [processFiles_append]
    have : processFiles om mf dp (f :: fs₂) (processFiles om mf dp fs₁ init) =
        processFiles om mf dp fs₂
          (fileStep om mf dp (processFiles om mf dp fs₁ init) f) := rfl
    rw [this, fileStep_readError om mf dp _ h hrun]

/-- Witness for C8: a not-found file and an erroring file between two
readable files. -/
theorem claim_C8_witness :
    (processFiles false none "/r/p"
        [⟨"a.el", .ok []⟩, ⟨"gone.el", .notFound⟩, ⟨"b.el", .ok []⟩] (∅, []) =
      processFiles false none "/r/p" [⟨"a.el", .ok []⟩, ⟨"b.el", .ok []⟩] (∅, [])) ∧
    (processFiles false none "/r/p"
        [⟨"a.el", .ok []⟩, ⟨"bad.el", .readError "boom"⟩, ⟨"b.el", .ok []⟩] (∅, []) =
      processFiles false none "/r/p" [⟨"b.el", .ok []⟩]
        ((processFiles false none "/r/p" [⟨"a.el", .ok []⟩] (∅, [])).1,
         (processFiles false none "/r/p" [⟨"a.el", .ok []⟩] (∅, [])).2 ++
           [warnMsg (pathJoin "/r/p" "bad.el") "boom"])) :=
  ⟨(claim_C8 false none "/r/p" (∅, []) [⟨"a.el", .ok []⟩] [⟨"b.el", .ok []⟩]
      ⟨"gone.el", .notFound⟩).1 rfl,
   (claim_C8 false none "/r/p" (∅, []) [⟨"a.el", .ok []⟩] [⟨"b.el", .ok []⟩]
      ⟨"bad.el", .readError "boom"⟩).2 "boom" rfl (Or.inl rfl)⟩

/-! ### Claims C2 and C3: main-file resolution and key collisions -/

lemma scanEntry_fst (repoPath : String) (om : Bool)
    (st : List (String × Finset String) × List String) (e : RepoEntry)
    (h : e.isDir = true) :
    (scanEntry repoPath om st e).1 =
      dictSet st.1 (deriveName e.name)
        ((dictGet st.1 (deriveName e.name)).getD ∅ ∪
          dirContribution repoPath om (deriveName e.name) e) := by
  simp only [scanEntry, h, Bool.not_true, Bool.false_eq_true, if_false, dirContribution]
  rw [processFiles_decomp]

/-- **C2.**  In main-file-only mode: a directory with exactly one source
file has that file as its main file whatever its name; with several
source files the main file resolves exactly when `<package_name>.el` is
among them (and is then that file); and when no main file resolves, the
directory contributes nothing, so a package seen only in that directory
ends up mapped to the empty set. -/
theorem claim_C2 :
    (∀ (key n : String), resolveMainFile key [n] = some n) ∧
    (∀ (key a b : String) (rest : List String),
      ((resolveMainFile key (a :: b :: rest)).isSome = true ↔
        (key ++ ".el") ∈ a :: b :: rest) ∧
      (∀ m, resolveMainFile key (a :: b :: rest) = some m → m = key ++ ".el")) ∧
    (∀ (repoPath : String) (st : List (String × Finset String) × List String)
        (e : RepoEntry),
      e.isDir = true →
      dictGet st.1 (deriveName e.name) = none →
      resolveMainFile (deriveName e.name)
        ((e.files.filter (fun f => strEndsWith f.name ".el")).map (·.name)) = none →
      dictGet (scanEntry repoPath true st e).1 (deriveName e.name) = some ∅) := by
  refine ⟨fun key n => rfl, ?_, ?_⟩
  · intro key a b rest
    have hr : resolveMainFile key (a :: b :: rest) =
        if (key ++ ".el") ∈ a :: b :: rest then some (key ++ ".el") else none := rfl
    constructor
    · by_cases hm : (key ++ ".el") ∈ a :: b :: rest
      · simp [hr, hm]
      · simp [hr, hm]
    · intro m hsome
      rw [hr] at hsome
      by_cases hm : (key ++ ".el") ∈ a :: b :: rest
      · rw [if_pos hm] at hsome
        exact (Option.some.inj hsome).symm
      · rw [if_neg hm] at hsome
        exact absurd hsome (by simp)
  · intro repoPath st e hdir hfresh hres
    rw [scanEntry_fst repoPath true st e hdir, dictGet_dictSet, if_pos rfl, hfresh]
    have hcontr : dirContribution repoPath true (deriveName e.name) e = ∅ := by
      rw [dirContribution]
      simp only [hres, ite_self]
      rw [processFiles_none_main]
    rw [hcontr]
    simp

/-- Witness for C2: a lone `main.el`, a two-file directory with and
without `pkg.el`, and a package directory scanned as empty. -/
theorem claim_C2_witness :
    resolveMainFile "pkg" ["main.el"] = some "main.el" ∧
    ((resolveMainFile "pkg" ["a.el", "pkg.el"]).isSome = true ↔
      ("pkg" ++ ".el") ∈ ["a.el", "pkg.el"]) ∧
    (∀ m, resolveMainFile "pkg" ["a.el", "b.el"] = some m → m = "pkg" ++ ".el") ∧
    dictGet
      (scanEntry "/r" true ([], [])
        ⟨"pkg", true, [⟨"a.el", .ok [";; Package-Requires: (dep-a)"]⟩,
                       ⟨"b.el", .ok [";; Package-Requires: (dep-b)"]⟩]⟩).1
      (deriveName "pkg") = some ∅ :=
  ⟨(claim_C2.1 "pkg" "main.el"),
   (claim_C2.2.1 "pkg" "a.el" "pkg.el" []).1,
   (claim_C2.2.1 "pkg" "a.el" "b.el" []).2,
   claim_C2.2.2 "/r" ([], [])
     ⟨"pkg", true, [⟨"a.el", .ok [";; Package-Requires: (dep-a)"]⟩,
                    ⟨"b.el", .ok [";; Package-Requires: (dep-b)"]⟩]⟩
     rfl rfl (by decide)⟩

/-- **C3.**  Two distinct package directories deriving the same package
name yield a single mapping entry whose dependency set is the union of
the dependencies discovered in the two directories. -/
theorem claim_C3 (repoPath : String) (om : Bool) (e1 e2 : RepoEntry)
    (h1 : e1.isDir = true) (h2 : e2.isDir = true)
    (hk : deriveName e2.name = deriveName e1.name) :
    (find_emacs_package_dependencies repoPath (some [e1, e2]) om).1 =
      [(deriveName e1.name,
        dirContribution repoPath om (deriveName e1.name) e1 ∪
          dirContribution repoPath om (deriveName e1.name) e2)] := by
  simp only [find_emacs_package_dependencies, List.foldl_cons, List.foldl_nil]
  rw [scanEntry_fst repoPath om _ e2 h2, scanEntry_fst repoPath om ([], []) e1 h1, hk]
  simp [dictGet, dictSet]

/-- Witness for C3: directories `foo` and `foo.el` both derive `foo`. -/
theorem claim_C3_witness :
    (find_emacs_package_dependencies "/r"
      (some [⟨"foo", true, [⟨"foo.el", .ok [";; Package-Requires: (dep-a)"]⟩]⟩,
             ⟨"foo.el", true, [⟨"foo.el", .ok [";; Package-Requires: (dep-b)"]⟩]⟩])
      false).1 =
      [(deriveName "foo",
        dirContribution "/r" false (deriveName "foo")
          ⟨"foo", true, [⟨"foo.el", .ok [";; Package-Requires: (dep-a)"]⟩]⟩ ∪
        dirContribution "/r" false (deriveName "foo")
          ⟨"foo.el", true, [⟨"foo.el", .ok [";; Package-Requires: (dep-b)"]⟩]⟩)] :=
  claim_C3 "/r" false _ _ rfl rfl (by decide)

/-! ### Claim C10: shape of all names in the scanned mapping -/

lemma fileStep_good (om : Bool) (mf : Option String) (dp : String)
    (acc : Finset String × List String) (f : EFile)
    (hacc : ∀ d ∈ acc.1, d.toList ≠ [] ∧ ∀ c ∈ d.toList, isDepChar c = true) :
    ∀ d ∈ (fileStep om mf dp acc f).1,
      d.toList ≠ [] ∧ ∀ c ∈ d.toList, isDepChar c = true := by
  intro d hd
  simp only [fileStep] at hd
  split at hd
  · exact hacc d hd
  · split at hd
    · rename_i lines heq
      rcases (mem_linesFold lines acc.1 d).mp hd with h1 | ⟨line, -, h2⟩
      · exact hacc d h1
      · exact mem_lineDeps_good h2
    · exact hacc d hd
    · exact hacc d hd

lemma processFiles_good (om : Bool) (mf : Option String) (dp : String)
    (files : List EFile) (acc : Finset String × List String)
    (hacc : ∀ d ∈ acc.1, d.toList ≠ [] ∧ ∀ c ∈ d.toList, isDepChar c = true) :
    ∀ d ∈ (processFiles om mf dp files acc).1,
      d.toList ≠ [] ∧ ∀ c ∈ d.toList, isDepChar c = true := by
  induction files generalizing acc with
  | nil => exact hacc
  | cons f fs ih =>
    have hstep : processFiles om mf dp (f :: fs) acc =
        processFiles om mf dp fs (fileStep om mf dp acc f) := rfl
    rw [hstep]
    exact ih (fileStep om mf dp acc f) (fileStep_good om mf dp acc f hacc)

lemma scanEntry_good (repoPath : String) (om : Bool)
    (st : List (String × Finset String) × List String) (e : RepoEntry)
    (hst : ∀ k s, dictGet st.1 k = some s →
      ∀ d ∈ s, d.toList ≠ [] ∧ ∀ c ∈ d.toList, isDepChar c = true) :
    ∀ k s, dictGet (scanEntry repoPath om st e).1 k = some s →
      ∀ d ∈ s, d.toList ≠ [] ∧ ∀ c ∈ d.toList, isDepChar c = true := by
  intro k s hks
  by_cases hdir : e.isDir = true
  · rw [scanEntry_fst repoPath om st e hdir, dictGet_dictSet] at hks
    split at hks
    · rename_i hkey
      rw [Option.some.injEq] at hks
      rw [← hks]
      intro d hd
      rcases Finset.mem_union.mp hd with h1 | h2
      · cases hget : dictGet st.1 (deriveName e.name) with
        | none => rw [hget] at h1; exact absurd h1 (by simp)
        | some s₀ =>
          rw [hget] at h1
          exact hst (deriveName e.name) s₀ hget d h1
      · rw [dirContribution] at h2
        exact processFiles_good om _ _ _ (∅, []) (by simp) d h2
    · exact hst k s hks
  · have : scanEntry repoPath om st e = st := by
      simp only [scanEntry]
      rw [if_pos]
      simp [hdir]
    rw [this] at hks
    exact hst k s hks

/-- **C10.**  Every dependency name in the mapping returned by the scan is
a nonempty string made only of word characters and hyphens. -/
theorem claim_C10 (repoPath : String) (repo : Option (List RepoEntry)) (om : Bool)
    (k : String) (s : Finset String)
    (h : dictGet (find_emacs_package_dependencies repoPath repo om).1 k = some s) :
    ∀ d ∈ s, d.toList ≠ [] ∧ ∀ c ∈ d.toList, isDepChar c = true := by
  cases repo with
  | none =>
    rw [find_emacs_package_dependencies] at h
    exact absurd h (by simp [dictGet])
  | some entries =>
    rw [find_emacs_package_dependencies] at h
    have main : ∀ (es : List RepoEntry) (st : List (String × Finset String) × List String),
        (∀ k' s', dictGet st.1 k' = some s' →
          ∀ d ∈ s', d.toList ≠ [] ∧ ∀ c ∈ d.toList, isDepChar c = true) →
        ∀ k' s', dictGet (es.foldl (scanEntry repoPath om) st).1 k' = some s' →
          ∀ d ∈ s', d.toList ≠ [] ∧ ∀ c ∈ d.toList, isDepChar c = true := by
      intro es
      induction es with
      | nil => intro st hst; exact hst
      | cons e es ih =>
        intro st hst
        rw [List.foldl_cons]
        exact ih (scanEntry repoPath om st e) (scanEntry_good repoPath om st e hst)
    exact main entries ([], [])
      (fun k' s' hk' => absurd hk' (by simp [dictGet])) k s h

/-- Witness for C10 on a concrete one-package repository: the extracted
name `b2` is nonempty and made of word-or-hyphen characters only. -/
theorem claim_C10_witness :
    "b2".toList ≠ [] ∧ "b2".toList.all isDepChar = true := by
  have h := claim_C10 "/r"
    (some [⟨"pkg", true, [⟨"pkg.el", .ok [";; Package-Requires: (dep-a (b2 \"1\"))"]⟩]⟩])
    true "pkg" {"b2", "dep-a"} (by rfl) "b2" (by decide)
  exact ⟨h.1, List.all_eq_true.mpr h.2⟩

/-! ### Claim C9: the concrete two-package scenario -/

/-- **C9.**  Scanning the repository with package directory `alpha`
(one file `alpha.el` declaring `((emacs "27.1") (beta "0.1"))`) and
package directory `beta` (one file `beta.el` without such a header)
yields exactly the mapping `alpha ↦ {emacs, beta}`, `beta ↦ ∅`, in either
scanning mode. -/
theorem claim_C9 :
    ((find_emacs_package_dependencies "/repo"
      (some [⟨"alpha", true,
               [⟨"alpha.el", .ok [";;; alpha.el --- a package",
                 ";; Package-Requires: ((emacs \"27.1\") (beta \"0.1\"))",
                 "(require beta)"]⟩]⟩,
             ⟨"beta", true,
               [⟨"beta.el", .ok [";;; beta.el --- another package",
                 "(message hi)"]⟩]⟩]) true).1 =
      [("alpha", {"emacs", "beta"}), ("beta", ∅)]) ∧
    ((find_emacs_package_dependencies "/repo"
      (some [⟨"alpha", true,
               [⟨"alpha.el", .ok [";;; alpha.el --- a package",
                 ";; Package-Requires: ((emacs \"27.1\") (beta \"0.1\"))",
                 "(require beta)"]⟩]⟩,
             ⟨"beta", true,
               [⟨"beta.el", .ok [";;; beta.el --- another package",
                 "(message hi)"]⟩]⟩]) false).1 =
      [("alpha", {"emacs", "beta"}), ("beta", ∅)]) := by
  have hset : ({"beta", "emacs"} : Finset String) = {"emacs", "beta"} := by
    apply Finset.ext
    intro a
    simp [or_comm]
  constructor
  · rw [← hset]
    rfl
  · rw [← hset]
    rfl

/-! ### Claim C5: edges stay inside the dependency map -/

lemma dictGet_some_mem {d : List (String × Finset String)} {k : String} {v : Finset String}
    (h : dictGet d k = some v) : (k, v) ∈ d := by
  induction d with
  | nil => simp [dictGet] at h
  | cons e rest ih =>
    obtain ⟨k₀, v₀⟩ := e
    rw [dictGet] at h
    split at h
    · rename_i hk
      rw [Option.some.injEq] at h
      rw [← h, ← hk]
      exact List.mem_cons_self _ _
    · exact List.mem_cons_of_mem _ (ih h)

lemma dictGet_of_mem_nodup {d : List (String × Finset String)} {k : String}
    {v : Finset String} (hmem : (k, v) ∈ d) (hnd : (d.map Prod.fst).Nodup) :
    dictGet d k = some v := by
  induction d with
  | nil => exact absurd hmem (List.not_mem_nil _)
  | cons e rest ih =>
    obtain ⟨k₀, v₀⟩ := e
    rw [List.map_cons, List.nodup_cons] at hnd
    rcases List.mem_cons.mp hmem with heq | hmem'
    · rw [Prod.mk.injEq] at heq
      rw [dictGet, if_pos heq.1.symm, heq.2]
    · rw [dictGet]
      split
      · rename_i hk
        subst hk
        exact absurd (List.mem_map_of_mem Prod.fst hmem') hnd.1
      · exact ih hmem' hnd.2

lemma dictGet_isSome_iff (d : List (String × Finset String)) (k : String) :
    (dictGet d k).isSome = true ↔ k ∈ d.map Prod.fst := by
  induction d with
  | nil => simp [dictGet]
  | cons e rest ih =>
    obtain ⟨k₀, v₀⟩ := e
    rw [dictGet]
    by_cases hk : k₀ = k
    · subst hk
      simp
    · rw [if_neg hk, List.map_cons, List.mem_cons, ← ih]
      have hkk : ¬(k = k₀) := fun he => hk he.symm
      simp [hkk]

lemma mem_edges_foldl (deps0 : List (String × Finset String)) :
    ∀ (l : List (String × Finset String)) (acc : Finset (String × String))
      (p d : String),
    ((p, d) ∈ l.foldl
      (fun acc e => acc ∪ (e.2.filter (fun x => isMapKey deps0 x)).image
        (fun x => (e.1, x))) acc) ↔
      (p, d) ∈ acc ∨ ∃ e ∈ l, p = e.1 ∧ d ∈ e.2 ∧ isMapKey deps0 d = true := by
  intro l
  induction l with
  | nil => simp
  | cons e rest ih =>
    intro acc p d
    rw [List.foldl_cons, ih]
    simp only [Finset.mem_union, Finset.mem_image, Finset.mem_filter, List.mem_cons]
    constructor
    · rintro ((h | h) | h)
      · exact Or.inl h
      · obtain ⟨x, ⟨hx1, hx2⟩, hx3⟩ := h
        rw [Prod.mk.injEq] at hx3
        exact Or.inr ⟨e, Or.inl rfl, hx3.1.symm, hx3.2 ▸ hx1, hx3.2 ▸ hx2⟩
      · obtain ⟨e', he', h1, h2, h3⟩ := h
        exact Or.inr ⟨e', Or.inr he', h1, h2, h3⟩
    · rintro (h | ⟨e', he' | he', h1, h2, h3⟩)
      · exact Or.inl (Or.inl h)
      · subst he'
        exact Or.inl (Or.inr ⟨d, ⟨h2, h3⟩, by rw [h1]⟩)
      · exact Or.inr ⟨e', he', h1, h2, h3⟩

/-- **C5.**  An edge `package → dependency` is emitted exactly when the
dependency name is itself a key of the dependency map; in particular no
emitted edge has a target outside the map keys. -/
theorem claim_C5 (deps : List (String × Finset String))
    (hnd : (deps.map Prod.fst).Nodup) :
    (∀ p d, (p, d) ∈ graphEdges deps → (dictGet deps d).isSome = true) ∧
    (∀ p d, (p, d) ∈ graphEdges deps ↔
      ∃ s, dictGet deps p = some s ∧ d ∈ s ∧ (dictGet deps d).isSome = true) := by
  have hmem : ∀ p d, (p, d) ∈ graphEdges deps ↔
      ∃ s, dictGet deps p = some s ∧ d ∈ s ∧ (dictGet deps d).isSome = true := by
    intro p d
    rw [graphEdges, mem_edges_foldl deps deps ∅ p d]
    simp only [Finset.not_mem_empty, false_or]
    constructor
    · rintro ⟨e, he, h1, h2, h3⟩
      exact ⟨e.2, by rw [h1]; exact dictGet_of_mem_nodup (by simpa using he) hnd, h2, h3⟩
    · rintro ⟨s, hs, h2, h3⟩
      exact ⟨(p, s), dictGet_some_mem hs, rfl, h2, h3⟩
  refine ⟨fun p d h => ?_, hmem⟩
  obtain ⟨s, -, -, h3⟩ := (hmem p d).mp h
  exact h3

/-- Witness for C5 on the map `a ↦ {b, x}`, `b ↦ ∅`. -/
theorem claim_C5_witness :
    ("a", "b") ∈ graphEdges [("a", {"b", "x"}), ("b", ∅)] ↔
      ∃ s, dictGet [("a", {"b", "x"}), ("b", ∅)] "a" = some s ∧ "b" ∈ s ∧
        (dictGet [("a", {"b", "x"}), ("b", ∅)] "b").isSome = true :=
  (claim_C5 [("a", {"b", "x"}), ("b", ∅)] (by decide)).2 "a" "b"

/-! ### Claim C6: one node per mapped package, placed by category -/

/-- The hierarchy members a category content emits nodes for (before the
dependency-map filter), in emission order. -/
def emitMembers : Cat → List String
  | .pkgs names => names
  | .dnil => []
  | .dcons k v rest =>
    (if k = "packages" then
      match v with
      | .pkgs names => names
      | _ => []
     else emitMembers v) ++ emitMembers rest

/-- The hierarchy members the top-level category loop emits nodes for. -/
def emitTop : Cat → List String
  | .pkgs _ => []
  | .dnil => []
  | .dcons _ v rest => emitMembers v ++ emitTop rest

lemma contentNodes_map_snd (isKey : String → Bool) :
    ∀ (c : Cat) (path : List String),
    (contentNodes isKey path c).map Prod.snd = (emitMembers c).filter isKey := by
  intro c
  induction c with
  | pkgs names =>
    intro path
    simp only [contentNodes, emitMembers, List.map_map]
    simp
  | dnil => intro path; rfl
  | dcons k v rest ihv ihr =>
    intro path
    by_cases hk : k = "packages"
    · subst hk
      cases v with
      | pkgs names =>
        simp only [contentNodes, emitMembers, eq_self_iff_true, if_true]
        rw [List.map_append, List.filter_append, ihr path, List.map_map]
        congr 1
        simp
      | dnil =>
        simp only [contentNodes, emitMembers, eq_self_iff_true, if_true]
        rw [List.map_append, List.filter_append, ihr path]
        rfl
      | dcons k2 v2 r2 =>
        simp only [contentNodes, emitMembers, eq_self_iff_true, if_true]
        rw [List.map_append, List.filter_append, ihr path]
        rfl
    · simp only [contentNodes, emitMembers, if_neg hk]
      rw [List.map_append, List.filter_append, ihr path, ihv (path ++ [k])]

lemma hierNodes_map_snd (isKey : String → Bool) :
    ∀ h : Cat, (hierNodes isKey h).map Prod.snd = (emitTop h).filter isKey := by
  intro h
  induction h with
  | pkgs names => rfl
  | dnil => rfl
  | dcons k v rest ihv ihr =>
    rw [hierNodes, emitTop, List.map_append, List.filter_append, ihr,
      contentNodes_map_snd isKey v [k]]

lemma contentNodes_path_le (isKey : String → Bool) :
    ∀ (c : Cat) (path : List String) (pr : List String × String),
    pr ∈ contentNodes isKey path c → path.length ≤ pr.1.length := by
  intro c
  induction c with
  | pkgs names =>
    intro path pr hpr
    simp only [contentNodes] at hpr
    obtain ⟨x, -, hx⟩ := List.mem_map.mp hpr
    rw [← hx]
  | dnil => intro path pr hpr; exact absurd hpr (List.not_mem_nil pr)
  | dcons k v rest ihv ihr =>
    intro path pr hpr
    by_cases hk : k = "packages"
    · subst hk
      cases v with
      | pkgs names =>
        simp only [contentNodes, eq_self_iff_true, if_true] at hpr
        rcases List.mem_append.mp hpr with h1 | h2
        · obtain ⟨x, -, hx⟩ := List.mem_map.mp h1
          rw [← hx]
        · exact ihr path pr h2
      | dnil =>
        simp only [contentNodes, eq_self_iff_true, if_true] at hpr
        rcases List.mem_append.mp hpr with h1 | h2
        · exact absurd h1 (List.not_mem_nil pr)
        · exact ihr path pr h2
      | dcons k2 v2 r2 =>
        simp only [contentNodes, eq_self_iff_true, if_true] at hpr
        rcases List.mem_append.mp hpr with h1 | h2
        · exact absurd h1 (List.not_mem_nil pr)
        · exact ihr path pr h2
    · simp only [contentNodes, if_neg hk] at hpr
      rcases List.mem_append.mp hpr with h1 | h2
      · have := ihv (path ++ [k]) pr h1
        rw [List.length_append] at this
        omega
      · exact ihr path pr h2
lemma hierNodes_path_ne_nil (isKey : String → Bool) :
    ∀ (h : Cat) (pr : List String × String), pr ∈ hierNodes isKey h → pr.1 ≠ [] := by
  intro h
  induction h with
  | pkgs names => intro pr hpr; exact absurd hpr (List.not_mem_nil pr)
  | dnil => intro pr hpr; exact absurd hpr (List.not_mem_nil pr)
  | dcons k v rest ihv ihr =>
    intro pr hpr
    rcases List.mem_append.mp ((by rw [hierNodes] at hpr; exact hpr :
        pr ∈ contentNodes isKey [k] v ++ hierNodes isKey rest)) with h1 | h2
    · have := contentNodes_path_le isKey v [k] pr h1
      intro hnil
      rw [hnil] at this
      simp at this
    · exact ihr pr h2

/-- **C6.**  For every dependency map: each key of the map gets exactly
one node (hierarchy members that are not keys get none); a key lying in
no category is emitted as an ungrouped top-level node (empty cluster
path); a key lying in a category gets its node inside a category cluster
(nonempty cluster path). -/
theorem claim_C6 (deps : List (String × Finset String))
    (hnd : (deps.map Prod.fst).Nodup) :
    (∀ p, ((graphNodes deps).map Prod.snd).count p =
      if (dictGet deps p).isSome then 1 else 0) ∧
    (∀ p, (dictGet deps p).isSome = true → p ∉ getAllPackages CATEGORY_HIERARCHY →
      (([] : List String), p) ∈ graphNodes deps) ∧
    (∀ p, (dictGet deps p).isSome = true → p ∈ getAllPackages CATEGORY_HIERARCHY →
      ∃ path, path ≠ [] ∧ (path, p) ∈ graphNodes deps) := by
  have hconc : emitTop CATEGORY_HIERARCHY = getAllPackages CATEGORY_HIERARCHY := rfl
  have hcnd : (emitTop CATEGORY_HIERARCHY).Nodup := by decide
  refine ⟨?_, ?_, ?_⟩
  · intro p
    have htop : List.map Prod.snd
        (((deps.map Prod.fst).filter
          (fun q => q ∉ getAllPackages CATEGORY_HIERARCHY)).map
            (fun q => (([] : List String), q))) =
        (deps.map Prod.fst).filter
          (fun q => q ∉ getAllPackages CATEGORY_HIERARCHY) := by
      rw [List.map_map]
      simp
    rw [graphNodes, List.map_append, List.count_append,
      hierNodes_map_snd (isMapKey deps) CATEGORY_HIERARCHY, htop]
    by_cases hkey : (dictGet deps p).isSome = true
    · rw [if_pos hkey]
      have hpk : p ∈ deps.map Prod.fst := (dictGet_isSome_iff deps p).mp hkey
      by_cases hall : p ∈ emitTop CATEGORY_HIERARCHY
      · have hkeyb : isMapKey deps p = true := hkey
        rw [List.count_filter hkeyb, List.count_eq_of_nodup hcnd, if_pos hall]
        have h2 : p ∉ (deps.map Prod.fst).filter
            (fun q => q ∉ getAllPackages CATEGORY_HIERARCHY) := by
          intro hm
          have hq := (List.mem_filter.mp hm).2
          rw [decide_eq_true_eq] at hq
          exact hq (hconc ▸ hall)
        rw [List.count_eq_zero_of_not_mem h2]
      · have h1 : p ∉ (emitTop CATEGORY_HIERARCHY).filter (isMapKey deps) :=
          fun hm => hall (List.mem_filter.mp hm).1
        rw [List.count_eq_zero_of_not_mem h1]
        have h2 : p ∈ (deps.map Prod.fst).filter
            (fun q => q ∉ getAllPackages CATEGORY_HIERARCHY) :=
          List.mem_filter.mpr ⟨hpk, decide_eq_true (fun hin => hall (hconc ▸ hin))⟩
        rw [List.count_eq_of_nodup (List.Nodup.filter _ hnd), if_pos h2]
    · rw [if_neg hkey]
      have hpk : p ∉ deps.map Prod.fst :=
        fun hin => hkey ((dictGet_isSome_iff deps p).mpr hin)
      have h1 : p ∉ (emitTop CATEGORY_HIERARCHY).filter (isMapKey deps) := by
        intro hm
        exact hkey ((List.mem_filter.mp hm).2)
      have h2 : p ∉ (deps.map Prod.fst).filter
          (fun q => q ∉ getAllPackages CATEGORY_HIERARCHY) :=
        fun hm => hpk (List.mem_filter.mp hm).1
      rw [List.count_eq_zero_of_not_mem h1, List.count_eq_zero_of_not_mem h2]
  · intro p hkey hnotall
    rw [graphNodes]
    refine List.mem_append_right _ ?_
    exact List.mem_map.mpr ⟨p,
      List.mem_filter.mpr ⟨(dictGet_isSome_iff deps p).mp hkey,
        decide_eq_true hnotall⟩, rfl⟩
  · intro p hkey hall
    have hmem : p ∈ (emitTop CATEGORY_HIERARCHY).filter (isMapKey deps) :=
      List.mem_filter.mpr ⟨hconc ▸ hall, hkey⟩
    rw [← hierNodes_map_snd (isMapKey deps) CATEGORY_HIERARCHY] at hmem
    obtain ⟨pr, hpr, hsnd⟩ := List.mem_map.mp hmem
    refine ⟨pr.1, hierNodes_path_ne_nil (isMapKey deps) CATEGORY_HIERARCHY pr hpr, ?_⟩
    rw [graphNodes]
    refine List.mem_append_left _ ?_
    rw [← hsnd, Prod.mk.eta]
    exact hpr

/-- Witness for C6 on the map `magit ↦ ∅` (categorized), `zzz ↦ ∅`
(uncategorized). -/
theorem claim_C6_witness :
    (((graphNodes [("magit", ∅), ("zzz", ∅)]).map Prod.snd).count "magit" =
      if (dictGet [("magit", ∅), ("zzz", ∅)] "magit").isSome then 1 else 0) ∧
    ((([] : List String), "zzz") ∈ graphNodes [("magit", ∅), ("zzz", ∅)]) ∧
    (∃ path, path ≠ [] ∧ (path, "magit") ∈ graphNodes [("magit", ∅), ("zzz", ∅)]) :=
  ⟨(claim_C6 [("magit", ∅), ("zzz", ∅)] (by decide)).1 "magit",
   (claim_C6 [("magit", ∅), ("zzz", ∅)] (by decide)).2.1 "zzz" (by decide) (by decide),
   (claim_C6 [("magit", ∅), ("zzz", ∅)] (by decide)).2.2 "magit" (by decide) (by decide)⟩
